import Mathlib

/-!
Verification of the staff-planning recommendation engine.

This file gives a shallow embedding of the parts of the repository that the
verified properties concern:

* `utils/recommendation_cache.py` — constraint normalization, hashing, and the
  persistent recommendation cache (load/save, lookup, store, clear);
* `get_recommendations.py` — the `get_recommendation` orchestration
  (cache check, compute, conditional cache write);
* `learning/model.py` — `AbnormalityModel.__init__`;
* `data_processing/features_retrieval/create_single_df.py` — candidate-pool
  row construction;
* the assignment optimizer (its source is not part of the analysed tree, so it
  is modelled from the specification, see `solve` below).

Modelling conventions: employee/client/school identifiers are modelled as
naturals (the code uses opaque id strings; only ordering and equality of ids
matter to the properties proved here, and Python's `sorted` on homogeneous id
lists is order-isomorphic to sorting naturals).  Timestamps
(`datetime.now().isoformat()`) are modelled as naturals supplied by the caller.
The md5 hexdigest in `_hash_hard_constraints` is modelled as the identity on
the serialized canonical JSON string: the digest is a fixed function of that
string, and collisions of md5 are outside the model (the spec itself treats the
hash as collision-free in practice), so equality of hashes is equality of
canonical serializations.
-/

namespace StaffPlanning

/-- A value stored under a key of the `hard_constraints` dict.  The code passes
either a flat list of ids (`forced_employees` / `forced_clients`) or a list of
id sequences (`forced_assignments` / `banned_assignments`, where each
assignment is a list or tuple of ids, normally a pair).  Heterogeneous lists
(mixing sequences and atoms) would raise `TypeError` inside Python's `sorted`
and are outside the modelled domain. -/
inductive CVal where
  | ids (xs : List Nat)
  | seqs (xs : List (List Nat))
deriving DecidableEq

/-- The raw `hard_constraints` argument: a Python dict modelled as an
association list with unique keys; `dictLookup` is `k in d` / `d[k]`. -/
abbrev HCDict := List (String × CVal)

/-- Membership-and-access of a Python dict key (first binding wins; Python
dicts cannot hold duplicate keys, so the association lists in scope are
assumed key-unique by construction). -/
def dictLookup {β : Type} (d : List (String × β)) (k : String) : Option β :=
  match d with
  | [] => none
  | (k', v) :: rest => if k' = k then some v else dictLookup rest k

/-- Python's `sorted` on a homogeneous list of ids. -/
def pySortNat (l : List Nat) : List Nat := l.insertionSort (· ≤ ·)

/-- Python's `sorted` on a homogeneous list of id sequences (tuples compare
lexicographically, mirrored by the lexicographic order on `List Nat`). -/
def pySortSeq (l : List (List Nat)) : List (List Nat) := l.insertionSort (· ≤ ·)

/-- One element of a pair-valued field after the inner normalization step:
`tuple(sorted(assignment)) if isinstance(assignment, (list, tuple)) else
assignment`.  On a list of sequences every element takes the first branch; on
a list of atoms every element is passed through unchanged. -/
def normAssignmentsVal : CVal → CVal
  | .ids xs => .ids (pySortNat xs)
  | .seqs xs => .seqs (pySortSeq (xs.map pySortNat))

/-- Normalization of an id-list field: `sorted(hard_constraints[key])`. -/
def normIdListVal : CVal → CVal
  | .ids xs => .ids (pySortNat xs)
  | .seqs xs => .seqs (pySortSeq xs)

/-- The canonical form produced by `_normalize_hard_constraints`: a dict whose
keys are exactly the recognized keys present in the input (`none` models an
absent key). -/
structure NormalizedConstraints where
  forced_assignments : Option CVal
  forced_employees : Option CVal
  forced_clients : Option CVal
  banned_assignments : Option CVal
deriving DecidableEq

/-- Embedding of `_normalize_hard_constraints` from
`utils/recommendation_cache.py`: each of the four recognized keys is copied
(sorted) into the normalized dict when present in the input; every other key
of the input dict is ignored. -/
def _normalize_hard_constraints (d : HCDict) : NormalizedConstraints where
  forced_assignments := (dictLookup d "forced_assignments").map normAssignmentsVal
  forced_employees := (dictLookup d "forced_employees").map normIdListVal
  forced_clients := (dictLookup d "forced_clients").map normIdListVal
  banned_assignments := (dictLookup d "banned_assignments").map normAssignmentsVal

/-- JSON rendering of one id (ids modelled as naturals). -/
def serNat (n : Nat) : String := toString n

/-- JSON rendering of a list of ids, with `json.dumps`'s default item
separator. -/
def serNatList (xs : List Nat) : String :=
  "[" ++ String.intercalate ", " (xs.map serNat) ++ "]"

/-- JSON rendering of a list of id sequences (tuples serialize as arrays). -/
def serSeqList (xs : List (List Nat)) : String :=
  "[" ++ String.intercalate ", " (xs.map serNatList) ++ "]"

/-- JSON rendering of a constraint value. -/
def serCVal : CVal → String
  | .ids xs => serNatList xs
  | .seqs xs => serSeqList xs

/-- The `"key": value` item contributed to the serialized dict by one field:
nothing when the key is absent, one item when present. -/
def serField (key : String) (v : Option CVal) : List String :=
  match v with
  | none => []
  | some c => ["\"" ++ key ++ "\": " ++ serCVal c]

/-- Joining of dict items with `json.dumps`'s default item separator. -/
def joinSep : List String → String
  | [] => ""
  | [s] => s
  | s :: t :: rest => s ++ ", " ++ joinSep (t :: rest)

/-- Embedding of `json.dumps(normalized, sort_keys=True)`: the four possible
keys in sorted key order (banned_assignments < forced_assignments <
forced_clients < forced_employees), joined and wrapped in braces. -/
def constraintsStr (n : NormalizedConstraints) : String :=
  "\x7b" ++ joinSep
    (serField "banned_assignments" n.banned_assignments ++
     serField "forced_assignments" n.forced_assignments ++
     serField "forced_clients" n.forced_clients ++
     serField "forced_employees" n.forced_employees) ++ "\x7d"

/-- Embedding of `_hash_hard_constraints`: the md5 hexdigest of the canonical
JSON string.  The digest is modelled as the identity on that string (see the
header comment), so the hash of a constraints dict is its canonical
serialization. -/
def _hash_hard_constraints (d : HCDict) : String :=
  constraintsStr (_normalize_hard_constraints d)

/-- Two optional id-list field values that contain the same set of ids: both
absent, or both present with duplicate-free id lists of equal underlying set
(the spec's data model declares these fields to be sets of ids). -/
def sameIds : Option CVal → Option CVal → Bool
  | none, none => true
  | some (.ids xs), some (.ids ys) =>
      decide xs.Nodup && decide ys.Nodup && decide (xs.toFinset = ys.toFinset)
  | _, _ => false

/-- Two optional pair-list field values that contain the same set of
unordered pairs: both absent, or both present with lists of id sequences
that, after sorting each sequence internally, are duplicate-free and have the
same underlying set (the spec's data model declares these fields to be sets
of unordered-inside, distinct pairs). -/
def samePairs : Option CVal → Option CVal → Bool
  | none, none => true
  | some (.seqs xs), some (.seqs ys) =>
      decide (xs.map pySortNat).Nodup && decide (ys.map pySortNat).Nodup &&
      decide ((xs.map pySortNat).toFinset = (ys.map pySortNat).toFinset)
  | _, _ => false

/-- One of the four recognized hard-constraint fields. -/
inductive CField where
  | fa | fe | fc | ba
deriving DecidableEq

/-- The dict key of a recognized field. -/
def fieldKey : CField → String
  | .fa => "forced_assignments"
  | .fe => "forced_employees"
  | .fc => "forced_clients"
  | .ba => "banned_assignments"

/-- Projection of a field out of the canonical form. -/
def normField : CField → NormalizedConstraints → Option CVal
  | .fa, n => n.forced_assignments
  | .fe, n => n.forced_employees
  | .fc, n => n.forced_clients
  | .ba, n => n.banned_assignments

/-- One record of the cache file, as written by `cache_result`.  `Out` is the
opaque recommendation payload (the `output` dict); `cached_at` is optional
because the code guards `if "cached_at" not in entry` (a hand-written entry
may lack it).  Timestamps are naturals supplied by the caller in place of
`datetime.now().isoformat()`. -/
structure CacheEntry (Out : Type) where
  constraint_hash : String
  hard_constraints : NormalizedConstraints
  output : Out
  cached_at : Option Nat
  last_access : Nat
deriving DecidableEq

/-- The `for i, entry in enumerate(cache): if <p entry>:` scan followed by
`cache.pop(i)`: the prefix before the first match, the matching element, and
the suffix after it; `none` when no element matches. -/
def extractFirst {α : Type} (p : α → Bool) : List α → Option (List α × α × List α)
  | [] => none
  | x :: xs =>
    if p x then some ([], x, xs)
    else (extractFirst p xs).map (fun y => (x :: y.1, y.2.1, y.2.2))

/-- Embedding of `get_cached_result`: scan the loaded cache for the first
entry with the request's constraint hash; on a hit, set its `last_access` to
the current time, move it to the end of the list, save, and return its
`output`; on a miss return `none` and leave the backing store untouched.
The returned pair is (result, cache state after the call). -/
def get_cached_result {Out : Type} (d : HCDict) (now : Nat)
    (st : List (CacheEntry Out)) : Option Out × List (CacheEntry Out) :=
  match extractFirst (fun e => e.constraint_hash = _hash_hard_constraints d) st with
  | some (pre, e, post) =>
    let e' := { e with last_access := now }
    (some e'.output, pre ++ post ++ [e'])
  | none => (none, st)

/-- Embedding of `has_seen_constraints`: whether any entry of the loaded
cache carries the request's constraint hash. -/
def has_seen_constraints {Out : Type} (d : HCDict)
    (st : List (CacheEntry Out)) : Bool :=
  st.any (fun e => e.constraint_hash = _hash_hard_constraints d)

/-- Embedding of `cache_result`: if an entry with the same constraint hash
exists, overwrite its `output`, `hard_constraints` and `last_access`,
preserve `cached_at` when present (set it otherwise), and move the entry to
the end; otherwise append a fresh entry with both timestamps set to now. -/
def cache_result {Out : Type} (d : HCDict) (out : Out) (now : Nat)
    (st : List (CacheEntry Out)) : List (CacheEntry Out) :=
  match extractFirst (fun e => e.constraint_hash = _hash_hard_constraints d) st with
  | some (pre, e, post) =>
    let e' := { e with output := out,
                       hard_constraints := _normalize_hard_constraints d,
                       last_access := now,
                       cached_at := some (e.cached_at.getD now) }
    pre ++ post ++ [e']
  | none =>
    st ++ [{ constraint_hash := _hash_hard_constraints d,
             hard_constraints := _normalize_hard_constraints d,
             output := out, cached_at := some now, last_access := now }]

/-- Embedding of `clear_cache`: the backing store is rewritten empty. -/
def clear_cache {Out : Type} : List (CacheEntry Out) := []

/-- Embedding of `get_recommendation` from `get_recommendations.py`, with the
whole compute pipeline (data fetch, pool build, scoring, solve) abstracted as
the opaque `compute` value: `some out` models a feasible solve producing the
output dict `out`, `none` models `objective_value is None` (infeasible).  The
result triple is (returned value, cache state after the call, whether the
pipeline was run); `none` as returned value is the infeasible signal.  The
code consults the cache first and returns a hit immediately; on a miss it
computes, and on a feasible result writes the cache only when
`has_seen_constraints` is still false. -/
def get_recommendation {Out : Type} (compute : Option Out) (now : Nat)
    (d : HCDict) (st : List (CacheEntry Out)) :
    Option Out × List (CacheEntry Out) × Bool :=
  match get_cached_result d now st with
  | (some cached, st') => (some cached, st', false)
  | (none, st') =>
    match compute with
    | some out =>
      if has_seen_constraints d st' then (some out, st', true)
      else (some out, cache_result d out now st', true)
    | none => (none, st', true)

/-- One operation against the shared cache store. -/
inductive CacheOp (Out : Type) where
  | store (d : HCDict) (out : Out) (now : Nat)
  | lookup (d : HCDict) (now : Nat)
  | clear

/-- State transition of the backing store under one cache operation. -/
def applyOp {Out : Type} (st : List (CacheEntry Out)) : CacheOp Out → List (CacheEntry Out)
  | .store d out now => cache_result d out now st
  | .lookup d now => (get_cached_result d now st).2
  | .clear => clear_cache

/-- The store reached from the empty store by a sequence of operations. -/
def runOps {Out : Type} (ops : List (CacheOp Out)) : List (CacheEntry Out) :=
  ops.foldl applyOp []

/-- At most one entry per distinct constraint hash. -/
def hashesNodup {Out : Type} (st : List (CacheEntry Out)) : Prop :=
  (st.map (fun e => e.constraint_hash)).Nodup

/-- Path of the pickled isolation-forest artifact in `learning/model.py`. -/
def model_path : String := "models/isolation_forst.pkl"

/-- Path of the pickled SHAP explainer artifact. -/
def explainer_path : String := "models/explainer.pkl"

/-- The constructor's `default_params` dict; parameter values are carried as
literal tokens (`contamination` is the float literal 0.15 in the source). -/
def default_params : List (String × String) :=
  [("n_estimators", "100"), ("max_samples", "auto"),
   ("contamination", "0.15"), ("random_state", "42")]

/-- Python `dict.update`: values of existing keys are overwritten in place,
new keys are appended in update order. -/
def dictUpdate {β : Type} (base upd : List (String × β)) :
    List (String × β) :=
  (base.map (fun kv =>
    match dictLookup upd kv.1 with
    | some v => (kv.1, v)
    | none => kv)) ++
  upd.filter (fun kv => (dictLookup base kv.1).isNone)

/-- The scoring model held after construction: the pickled artifact loaded
from disk, or a freshly constructed IsolationForest with the given
parameters. -/
inductive ScoringModel where
  | loadedFromFile (path : String)
  | freshIsolationForest (params : List (String × String))
deriving DecidableEq

/-- The explainer held after construction. -/
inductive ExplainerState where
  | loadedFromFile (path : String)
  | noExplainer
deriving DecidableEq

/-- State of an `AbnormalityModel` instance after `__init__`. -/
structure AbnormalityModel where
  model : ScoringModel
  explainer : ExplainerState
deriving DecidableEq

/-- Embedding of `AbnormalityModel.__init__` from `learning/model.py`:
`model_file_exists` / `explainer_file_exists` model `os.path.exists` on the
two artifact paths a construction time.  `if model_params:` is Python
truthiness, false for both `None` and the empty dict.  The constructor is a
total function: no error is ever raised. -/
def AbnormalityModel.init (model_params : Option (List (String × String)))
    (use_cache : Bool) (model_file_exists explainer_file_exists : Bool) :
    AbnormalityModel :=
  let ps := match model_params with
    | some [] => default_params
    | some mp => dictUpdate default_params mp
    | none => default_params
  { model :=
      if use_cache && model_file_exists then .loadedFromFile model_path
      else .freshIsolationForest ps,
    explainer :=
      if use_cache && explainer_file_exists then .loadedFromFile explainer_path
      else .noExplainer }

/-- The fixed full-availability pattern `base_availability` (a constant
defined in `utils/base_availability.py`, outside the analysed tree),
modelled as an opaque token value. -/
def base_availability : Nat := 0

/-- One employee row of `mas_df` with the columns `create_single_row` reads;
the JSON-encoded experience dicts are modelled as association lists. -/
structure MaRecord where
  id : Nat
  timeToSchool : List (Nat × Nat)
  cl_experience : List (Nat × Nat)
  school_experience : List (Nat × Nat)
  short_term_cl_experience : List (Nat × Nat)
  availability : Nat
  hasCar : Bool
  qualifications : List Nat
deriving DecidableEq

/-- One client row of `clients_df` with the columns `create_single_row`
reads. -/
structure ClientRecord where
  id : Nat
  school : Nat
  priority : Nat
  requiredSex : Option Nat
  neededQualifications : List Nat
deriving DecidableEq

/-- One row of the `replacements` frame: a candidate (employee, client)
pairing by id. -/
structure Replacement where
  mas : Nat
  clients : Nat
deriving DecidableEq

/-- One candidate-pool feature row as built by `create_single_row`. -/
structure CandidateRow where
  ma_id : Nat
  client_id : Nat
  date : Option Nat
  timeToSchool : Option Nat
  cl_experience : Option Nat
  school_experience : Option Nat
  short_term_cl_experience : Option Nat
  priority : Nat
  ma_availability : Bool
  mobility : Bool
  geschlecht_relevant : Bool
  qualifications_met : Bool
deriving DecidableEq

/-- Python `dict.get` on a nat-keyed dict: `none` when the key is absent. -/
def natLookup (d : List (Nat × Nat)) (k : Nat) : Option Nat :=
  match d with
  | [] => none
  | (k', v) :: rest => if k' = k then some v else natLookup rest k

/-- Embedding of `create_single_row`: every experience / travel-time lookup
uses `.get`, so a missing entry yields `none` (null), never an exclusion. -/
def create_single_row (date : Option Nat) (ma : MaRecord) (cl : ClientRecord) :
    CandidateRow where
  ma_id := ma.id
  client_id := cl.id
  date := date
  timeToSchool := natLookup ma.timeToSchool cl.school
  cl_experience := natLookup ma.cl_experience cl.id
  school_experience := natLookup ma.school_experience cl.school
  short_term_cl_experience := natLookup ma.short_term_cl_experience cl.id
  priority := cl.priority
  ma_availability := ma.availability = base_availability
  mobility := ma.hasCar
  geschlecht_relevant := cl.requiredSex.isSome
  qualifications_met :=
    cl.neededQualifications.all (fun e => ma.qualifications.contains e)

/-- Embedding of `create_single_df`: two inner merges (`replacements ×
mas_df` on `mas = id`, then `× clients_df` on `clients = id`) followed by a
row-wise build.  An inner pandas merge keeps, for each left row, one row per
matching right row, in left order; a replacement whose employee or client id
has no match is dropped entirely. -/
def create_single_df (clients_df : List ClientRecord) (mas_df : List MaRecord)
    (replacements : List Replacement) (date : Option Nat) :
    List CandidateRow :=
  let merged := replacements.flatMap (fun r =>
    (mas_df.filter (fun m => m.id = r.mas)).flatMap (fun m =>
      (clients_df.filter (fun c => c.id = r.clients)).map (fun c => (m, c))))
  if merged.isEmpty then []
  else merged.map (fun mc => create_single_row date mc.1 mc.2)

/-- A Python value, as produced by `json.load`. -/
inductive PyVal where
  | vNull
  | vBool (b : Bool)
  | vInt (n : Int)
  | vStr (s : String)
  | vList (xs : List PyVal)
  | vDict (kvs : List (String × PyVal))

/-- The observable state of the cache backing file: absent, unreadable
(`IOError`), syntactically invalid JSON (`json.JSONDecodeError`), or parsed
JSON content of any shape. -/
inductive FileContent where
  | missing
  | ioError
  | badJson
  | parsed (v : PyVal)

/-- Embedding of `_load_cache`: a missing file returns `[]`; read and parse
errors are caught (and printed) and return `[]`; otherwise the parsed JSON
value is returned as-is, whatever its shape. -/
def _load_cache : FileContent → PyVal
  | .missing => .vList []
  | .ioError => .vList []
  | .badJson => .vList []
  | .parsed v => v

/-- A Python-level exception raised by the cache code on wrong-shaped
content; it is not caught anywhere in `recommendation_cache.py`. -/
inductive PyErr where
  | typeError
  | attributeError
deriving DecidableEq

/-- Python `for x in v`: lists iterate their elements, dicts their keys,
strings their one-character substrings; other values raise `TypeError`. -/
def pyIter : PyVal → Except PyErr (List PyVal)
  | .vList xs => .ok xs
  | .vDict kvs => .ok (kvs.map (fun kv => .vStr kv.1))
  | .vStr s => .ok (s.toList.map (fun c => .vStr c.toString))
  | _ => .error .typeError

/-- Python `entry.get(key)`: defined only on dicts (`AttributeError`
otherwise); a missing key yields `None`. -/
def pyGet (v : PyVal) (key : String) : Except PyErr PyVal :=
  match v with
  | .vDict kvs => .ok ((dictLookup kvs key).getD .vNull)
  | _ => .error .attributeError

/-- The loop of `has_seen_constraints`:
`for entry in cache: if entry.get("constraint_hash") == constraint_hash`.
A non-string `.get` result compares unequal to the hash string. -/
def scanHash (h : String) : List PyVal → Except PyErr Bool
  | [] => .ok false
  | e :: rest => do
    let v ← pyGet e "constraint_hash"
    match v with
    | .vStr s => if s = h then pure true else scanHash h rest
    | _ => scanHash h rest

/-- Embedding of `has_seen_constraints` at the raw-file level. -/
def has_seen_constraints_file (fc : FileContent) (d : HCDict) :
    Except PyErr Bool := do
  let entries ← pyIter (_load_cache fc)
  scanHash (_hash_hard_constraints d) entries

/-- Python dict assignment `kvs[k] = v`: overwrite in place or append. -/
def dictSet (kvs : List (String × PyVal)) (k : String) (v : PyVal) :
    List (String × PyVal) :=
  if (dictLookup kvs k).isSome then
    kvs.map (fun kv => if kv.1 = k then (k, v) else kv)
  else kvs ++ [(k, v)]

/-- The indexed loop of `get_cached_result`: find the first entry whose
`constraint_hash` equals the request hash; on a match, set its
`last_access`, pop it, append it at the end, and hand back its `output`
together with the rebuilt list. -/
def getCachedScan (h : String) (now : String) :
    List PyVal → Except PyErr (Option (PyVal × List PyVal))
  | [] => .ok none
  | e :: rest => do
    let v ← pyGet e "constraint_hash"
    match v with
    | .vStr s =>
      if s = h then
        match e with
        | .vDict kvs =>
          let e' := PyVal.vDict (dictSet kvs "last_access" (.vStr now))
          .ok (some ((dictLookup kvs "output").getD .vNull, rest ++ [e']))
        | _ => .error .attributeError
      else do
        let r ← getCachedScan h now rest
        .ok (r.map (fun p => (p.1, e :: p.2)))
    | _ => do
      let r ← getCachedScan h now rest
      .ok (r.map (fun p => (p.1, e :: p.2)))

/-- Embedding of `get_cached_result` at the raw-file level: on a hit the
mutated list is saved back to the file; on a miss nothing is written.
`now` is the `datetime.now().isoformat()` string. -/
def get_cached_result_file (fc : FileContent) (now : String) (d : HCDict) :
    Except PyErr (Option PyVal × FileContent) := do
  let entries ← pyIter (_load_cache fc)
  match ← getCachedScan (_hash_hard_constraints d) now entries with
  | some (outv, newList) => .ok (some outv, .parsed (.vList newList))
  | none => .ok (none, fc)

/-- One scored candidate pair consumed by the optimizer; the abnormality
score is modelled as an integer (only its ordering matters). -/
structure ScoredPair where
  ma : Nat
  client : Nat
  score : Int
deriving DecidableEq

/-- The four hard-constraint sets as the optimizer consumes them. -/
structure SolverConstraints where
  forced_assignments : List (Nat × Nat)
  forced_employees : List Nat
  forced_clients : List Nat
  banned_assignments : List (Nat × Nat)
deriving DecidableEq

/-- Modelled from the spec: assignment exclusivity (spec 4.3) — no employee
and no client appears in more than one selected pair.  The optimizer source
(`optimize/optimize.py`) is not part of the analysed tree. -/
def isMatching (m : List ScoredPair) : Bool :=
  decide (m.map (fun r => r.ma)).Nodup &&
  decide (m.map (fun r => r.client)).Nodup

/-- Modelled from the spec: feasibility of a selection (spec 4.3) —
exclusivity, every forced assignment selected, every forced employee and
client covered, no banned assignment selected. -/
def feasibleFor (cons : SolverConstraints) (m : List ScoredPair) : Bool :=
  isMatching m &&
  cons.forced_assignments.all
    (fun p => m.any (fun r => decide (r.ma = p.1 ∧ r.client = p.2))) &&
  cons.forced_employees.all (fun a => m.any (fun r => decide (r.ma = a))) &&
  cons.forced_clients.all (fun a => m.any (fun r => decide (r.client = a))) &&
  cons.banned_assignments.all
    (fun p => !(m.any (fun r => decide (r.ma = p.1 ∧ r.client = p.2))))

/-- Modelled from the spec: the objective — total normalcy score of the
selected pairs, to be maximized. -/
def objective (m : List ScoredPair) : Int := (m.map (fun r => r.score)).sum

/-- Modelled from the spec: the fixed selection key — lexicographic on
(negated objective, list of (employee id, client id) pairs); smaller key =
higher objective, ties broken by the documented lexicographic pair order. -/
def solKey (m : List ScoredPair) : Lex (Int × List (Lex (Nat × Nat))) :=
  toLex (-(objective m), m.map (fun r => toLex (r.ma, r.client)))

/-- Modelled from the spec: deterministic choice of the candidate with the
least selection key. -/
def pickBest : List (List ScoredPair) → Option (List ScoredPair)
  | [] => none
  | x :: xs => some (xs.foldl (fun acc y => if solKey y < solKey acc then y else acc) x)

/-- Modelled from the spec: `solve(pool, constraints)` — the feasible
subset of the pool with maximal total score, ties broken by the fixed key
order; `none` is the infeasible signal (spec 4.3). -/
def solve (pool : List ScoredPair) (cons : SolverConstraints) :
    Option (List ScoredPair) :=
  pickBest (pool.sublists.filter (feasibleFor cons))

/-- Declarative optimality: a feasible selection from the pool that no
other feasible selection beats under the fixed key order. -/
def isOptimal (pool : List ScoredPair) (cons : SolverConstraints)
    (m : List ScoredPair) : Prop :=
  m ∈ (pool.sublists.filter (feasibleFor cons)) ∧
  ∀ y ∈ pool.sublists.filter (feasibleFor cons), ¬ solKey y < solKey m

end StaffPlanning

namespace StaffPlanning

/-! Helper lemmas. -/

/-- Sorting is determined by the underlying set for duplicate-free lists. -/
theorem sortEqOfSet {α : Type} [LinearOrder α] [DecidableEq α] (xs ys : List α)
    (h1 : xs.Nodup) (h2 : ys.Nodup) (h3 : xs.toFinset = ys.toFinset) :
    xs.insertionSort (· ≤ ·) = ys.insertionSort (· ≤ ·) := by
  have hperm : List.Perm xs ys := by
    rw [List.perm_ext_iff_of_nodup h1 h2]
    intro a
    rw [← List.mem_toFinset, h3, List.mem_toFinset]
  exact List.eq_of_perm_of_sorted
    (((List.perm_insertionSort _ xs).trans hperm).trans
      (List.perm_insertionSort _ ys).symm)
    (List.sorted_insertionSort _ xs) (List.sorted_insertionSort _ ys)

/-- Id-list fields with the same underlying set normalize identically. -/
theorem sameIds_norm {o₁ o₂ : Option CVal} (h : sameIds o₁ o₂ = true) :
    o₁.map normIdListVal = o₂.map normIdListVal := by
  match o₁, o₂, h with
  | none, none, _ => rfl
  | some (.ids xs), some (.ids ys), h =>
    simp only [sameIds, Bool.and_eq_true, decide_eq_true_eq] at h
    show some (CVal.ids (pySortNat xs)) = some (CVal.ids (pySortNat ys))
    exact congrArg (fun l => some (CVal.ids l)) (sortEqOfSet xs ys h.1.1 h.1.2 h.2)

/-- Pair-list fields with the same underlying set of unordered pairs
normalize identically. -/
theorem samePairs_norm {o₁ o₂ : Option CVal} (h : samePairs o₁ o₂ = true) :
    o₁.map normAssignmentsVal = o₂.map normAssignmentsVal := by
  match o₁, o₂, h with
  | none, none, _ => rfl
  | some (.seqs xs), some (.seqs ys), h =>
    simp only [samePairs, Bool.and_eq_true, decide_eq_true_eq] at h
    show some (CVal.seqs (pySortSeq (xs.map pySortNat))) =
      some (CVal.seqs (pySortSeq (ys.map pySortNat)))
    exact congrArg (fun l => some (CVal.seqs l))
      (sortEqOfSet (xs.map pySortNat) (ys.map pySortNat) h.1.1 h.1.2 h.2)

/-- Inserting a nonempty item into a joined item list strictly grows it. -/
theorem joinSep_length_lt (x : String) (hx : 0 < x.length) :
    ∀ (l1 l2 : List String),
      (joinSep (l1 ++ l2)).length < (joinSep (l1 ++ x :: l2)).length := by
  intro l1
  induction l1 with
  | nil =>
    intro l2
    cases l2 with
    | nil => simpa [joinSep] using hx
    | cons y ys => simp [joinSep, String.length_append]; omega
  | cons a as ih =>
    intro l2
    have h2 := ih l2
    cases h : as ++ l2 with
    | nil =>
      rcases List.append_eq_nil.mp h with ⟨ha, hb⟩
      subst ha; subst hb
      simp [joinSep, String.length_append]; omega
    | cons b bs =>
      have hne : as ++ x :: l2 ≠ [] := by simp
      rw [List.cons_append, List.cons_append]
      rw [h] at h2 ⊢
      match hh : as ++ x :: l2, hne with
      | c :: cs, _ =>
        rw [hh] at h2
        simp only [joinSep, String.length_append]
        omega

/-- Serialized dicts that differ by the insertion of one nonempty item are
distinct strings. -/
theorem constraintsStr_ne_of_insert (pre post : List String) (P : String)
    (hP : 0 < P.length) :
    "\x7b" ++ joinSep (pre ++ post) ++ "\x7d" ≠
      "\x7b" ++ joinSep (pre ++ P :: post) ++ "\x7d" := by
  intro h
  have hlen := congrArg String.length h
  simp only [String.length_append] at hlen
  have hlt := joinSep_length_lt P hP pre post
  omega

/-- A scan that finds nothing sees a false predicate everywhere. -/
theorem extractFirst_eq_none_iff {α : Type} (p : α → Bool) (l : List α) :
    extractFirst p l = none ↔ ∀ x ∈ l, p x = false := by
  induction l with
  | nil => simp [extractFirst]
  | cons x xs ih =>
    by_cases h : p x <;>
      simp [extractFirst, h, Option.map_eq_none', ih]

/-- A successful scan splits the list at the first match. -/
theorem extractFirst_some_spec {α : Type} (p : α → Bool) (l pre : List α)
    (e : α) (post : List α) (h : extractFirst p l = some (pre, e, post)) :
    l = pre ++ e :: post ∧ p e = true ∧ ∀ x ∈ pre, p x = false := by
  induction l generalizing pre with
  | nil => simp [extractFirst] at h
  | cons x xs ih =>
    by_cases hx : p x = true
    · rw [extractFirst, if_pos hx] at h
      injection h with h'
      injection h' with h1 h23
      injection h23 with h2 h3
      subst h1; subst h2; subst h3
      exact ⟨rfl, hx, by simp⟩
    · rw [extractFirst, if_neg hx] at h
      rw [Option.map_eq_some'] at h
      obtain ⟨⟨pre', e', post'⟩, hrec, heq⟩ := h
      injection heq with h1 h23
      injection h23 with h2 h3
      subst h1; subst h2; subst h3
      obtain ⟨ha, hb, hc⟩ := ih pre' hrec
      subst ha
      refine ⟨by simp, hb, ?_⟩
      intro z hz
      rcases List.mem_cons.mp hz with hz | hz
      · subst hz; simpa using hx
      · exact hc z hz

/-- A scan over an appended list that misses the first part continues into
the second. -/
theorem extractFirst_append_none {α : Type} (p : α → Bool) (l₁ l₂ : List α)
    (h : extractFirst p l₁ = none) :
    extractFirst p (l₁ ++ l₂) =
      (extractFirst p l₂).map (fun y => (l₁ ++ y.1, y.2.1, y.2.2)) := by
  induction l₁ with
  | nil => simp
  | cons x xs ih =>
    have hx : p x = false := (extractFirst_eq_none_iff p _).mp h x (by simp)
    have hxs : extractFirst p xs = none := by
      rw [extractFirst_eq_none_iff]
      exact fun z hz => (extractFirst_eq_none_iff p _).mp h z (by simp [hz])
    rw [List.cons_append, extractFirst, if_neg (by simp [hx]), ih hxs,
      Option.map_map]
    cases h2 : extractFirst p l₂ with
    | none => rfl
    | some y => simp

/-- C2: Normalization is order-independent: two hard-constraints dicts whose
four recognized fields hold the same sets — the same set of ids for
`forced_employees` / `forced_clients` and the same set of unordered pairs for
`forced_assignments` / `banned_assignments`, regardless of list order and of
the internal order of each pair — produce equal canonical forms, and hence
equal constraint hashes. -/
theorem normalization_order_independent (d₁ d₂ : HCDict)
    (hfa : samePairs (dictLookup d₁ "forced_assignments")
      (dictLookup d₂ "forced_assignments") = true)
    (hfe : sameIds (dictLookup d₁ "forced_employees")
      (dictLookup d₂ "forced_employees") = true)
    (hfc : sameIds (dictLookup d₁ "forced_clients")
      (dictLookup d₂ "forced_clients") = true)
    (hba : samePairs (dictLookup d₁ "banned_assignments")
      (dictLookup d₂ "banned_assignments") = true) :
    _normalize_hard_constraints d₁ = _normalize_hard_constraints d₂ ∧
    _hash_hard_constraints d₁ = _hash_hard_constraints d₂ := by
  have hn : _normalize_hard_constraints d₁ = _normalize_hard_constraints d₂ := by
    unfold _normalize_hard_constraints
    rw [samePairs_norm hfa, sameIds_norm hfe, sameIds_norm hfc, samePairs_norm hba]
  exact ⟨hn, congrArg constraintsStr hn⟩

/-- Witness for C2 at concrete dicts that list the same sets in different
orders, with pair internals swapped. -/
theorem normalization_order_independent_witness :
    _normalize_hard_constraints
        [("forced_assignments", CVal.seqs [[1, 2], [4, 3]]),
         ("forced_employees", CVal.ids [5, 6]),
         ("forced_clients", CVal.ids [7]),
         ("banned_assignments", CVal.seqs [[9, 8]])] =
      _normalize_hard_constraints
        [("banned_assignments", CVal.seqs [[8, 9]]),
         ("forced_clients", CVal.ids [7]),
         ("forced_employees", CVal.ids [6, 5]),
         ("forced_assignments", CVal.seqs [[3, 4], [2, 1]])] ∧
    _hash_hard_constraints
        [("forced_assignments", CVal.seqs [[1, 2], [4, 3]]),
         ("forced_employees", CVal.ids [5, 6]),
         ("forced_clients", CVal.ids [7]),
         ("banned_assignments", CVal.seqs [[9, 8]])] =
      _hash_hard_constraints
        [("banned_assignments", CVal.seqs [[8, 9]]),
         ("forced_clients", CVal.ids [7]),
         ("forced_employees", CVal.ids [6, 5]),
         ("forced_assignments", CVal.seqs [[3, 4], [2, 1]])] :=
  normalization_order_independent _ _ (by decide) (by decide) (by decide)
    (by decide)

/-- C10: Unrecognized constraint keys do not influence the cache key: two
hard-constraints dicts that agree on the four recognized fields normalize and
hash identically, whatever other keys they carry. -/
theorem unrecognized_keys_ignored (d₁ d₂ : HCDict)
    (h : ∀ f : CField, dictLookup d₁ (fieldKey f) = dictLookup d₂ (fieldKey f)) :
    _normalize_hard_constraints d₁ = _normalize_hard_constraints d₂ ∧
    _hash_hard_constraints d₁ = _hash_hard_constraints d₂ := by
  have hfa : dictLookup d₁ "forced_assignments" = dictLookup d₂ "forced_assignments" :=
    h .fa
  have hfe : dictLookup d₁ "forced_employees" = dictLookup d₂ "forced_employees" :=
    h .fe
  have hfc : dictLookup d₁ "forced_clients" = dictLookup d₂ "forced_clients" :=
    h .fc
  have hba : dictLookup d₁ "banned_assignments" = dictLookup d₂ "banned_assignments" :=
    h .ba
  have hn : _normalize_hard_constraints d₁ = _normalize_hard_constraints d₂ := by
    unfold _normalize_hard_constraints
    rw [hfa, hfe, hfc, hba]
  exact ⟨hn, congrArg constraintsStr hn⟩

/-- C9: Absent fields are omitted from the canonical form: a dict omitting a
recognized field normalizes to a canonical form without that key, while a
dict that passes the same field as an explicit empty list keeps the key with
an empty list; the two canonical forms differ and so do their hashes, so the
two requests are distinct cache inputs.  (In the model an empty Python list
is represented by either `CVal.ids []` or `CVal.seqs []`; both stand for the
same literal `[]`.) -/
theorem absent_field_differs_from_explicit_empty (d₁ d₂ : HCDict) (f : CField)
    (h1 : dictLookup d₁ (fieldKey f) = none)
    (h2 : dictLookup d₂ (fieldKey f) = some (.ids []) ∨
      dictLookup d₂ (fieldKey f) = some (.seqs []))
    (hrest : ∀ g : CField, g ≠ f →
      dictLookup d₂ (fieldKey g) = dictLookup d₁ (fieldKey g)) :
    normField f (_normalize_hard_constraints d₁) = none ∧
    (normField f (_normalize_hard_constraints d₂) = some (.ids []) ∨
     normField f (_normalize_hard_constraints d₂) = some (.seqs [])) ∧
    _normalize_hard_constraints d₁ ≠ _normalize_hard_constraints d₂ ∧
    _hash_hard_constraints d₁ ≠ _hash_hard_constraints d₂ := by
  cases f with
  | fa =>
    have hba : dictLookup d₂ "banned_assignments" = dictLookup d₁ "banned_assignments" :=
      hrest .ba (by decide)
    have hfc : dictLookup d₂ "forced_clients" = dictLookup d₁ "forced_clients" :=
      hrest .fc (by decide)
    have hfe : dictLookup d₂ "forced_employees" = dictLookup d₁ "forced_employees" :=
      hrest .fe (by decide)
    have h1' : dictLookup d₁ "forced_assignments" = none := h1
    have h2' : dictLookup d₂ "forced_assignments" = some (.ids []) ∨
        dictLookup d₂ "forced_assignments" = some (.seqs []) := h2
    obtain ⟨v, hv⟩ : ∃ v, dictLookup d₂ "forced_assignments" = some v := by
      rcases h2' with h | h <;> exact ⟨_, h⟩
    refine ⟨?_, ?_, ?_, ?_⟩
    · simp [normField, _normalize_hard_constraints, h1']
    · rcases h2' with h | h <;>
        simp [normField, _normalize_hard_constraints, h, normAssignmentsVal,
          pySortNat, pySortSeq, List.insertionSort]
    · intro heq
      have hfld := congrArg (normField .fa) heq
      rcases h2' with h | h <;>
        simp [normField, _normalize_hard_constraints, h1', h] at hfld
    · show constraintsStr (_normalize_hard_constraints d₁) ≠
        constraintsStr (_normalize_hard_constraints d₂)
      have hP : 0 < ("\"forced_assignments\": " ++
          serCVal (normAssignmentsVal v)).length := by
        rw [String.length_append]
        have h0 : 0 < ("\"forced_assignments\": " : String).length := by decide
        omega
      have hne := constraintsStr_ne_of_insert
        (serField "banned_assignments"
          ((dictLookup d₁ "banned_assignments").map normAssignmentsVal))
        (serField "forced_clients"
          ((dictLookup d₁ "forced_clients").map normIdListVal) ++
         serField "forced_employees"
          ((dictLookup d₁ "forced_employees").map normIdListVal))
        ("\"forced_assignments\": " ++ serCVal (normAssignmentsVal v)) hP
      simpa [constraintsStr, _normalize_hard_constraints, h1', hv, hba, hfc,
        hfe, serField, List.append_assoc] using hne
  | fe =>
    have hba : dictLookup d₂ "banned_assignments" = dictLookup d₁ "banned_assignments" :=
      hrest .ba (by decide)
    have hfa : dictLookup d₂ "forced_assignments" = dictLookup d₁ "forced_assignments" :=
      hrest .fa (by decide)
    have hfc : dictLookup d₂ "forced_clients" = dictLookup d₁ "forced_clients" :=
      hrest .fc (by decide)
    have h1' : dictLookup d₁ "forced_employees" = none := h1
    have h2' : dictLookup d₂ "forced_employees" = some (.ids []) ∨
        dictLookup d₂ "forced_employees" = some (.seqs []) := h2
    obtain ⟨v, hv⟩ : ∃ v, dictLookup d₂ "forced_employees" = some v := by
      rcases h2' with h | h <;> exact ⟨_, h⟩
    refine ⟨?_, ?_, ?_, ?_⟩
    · simp [normField, _normalize_hard_constraints, h1']
    · rcases h2' with h | h <;>
        simp [normField, _normalize_hard_constraints, h, normIdListVal,
          pySortNat, pySortSeq, List.insertionSort]
    · intro heq
      have hfld := congrArg (normField .fe) heq
      rcases h2' with h | h <;>
        simp [normField, _normalize_hard_constraints, h1', h] at hfld
    · show constraintsStr (_normalize_hard_constraints d₁) ≠
        constraintsStr (_normalize_hard_constraints d₂)
      have hP : 0 < ("\"forced_employees\": " ++
          serCVal (normIdListVal v)).length := by
        rw [String.length_append]
        have h0 : 0 < ("\"forced_employees\": " : String).length := by decide
        omega
      have hne := constraintsStr_ne_of_insert
        (serField "banned_assignments"
          ((dictLookup d₁ "banned_assignments").map normAssignmentsVal) ++
         serField "forced_assignments"
          ((dictLookup d₁ "forced_assignments").map normAssignmentsVal) ++
         serField "forced_clients"
          ((dictLookup d₁ "forced_clients").map normIdListVal))
        []
        ("\"forced_employees\": " ++ serCVal (normIdListVal v)) hP
      simpa [constraintsStr, _normalize_hard_constraints, h1', hv, hba, hfa,
        hfc, serField, List.append_assoc] using hne
  | fc =>
    have hba : dictLookup d₂ "banned_assignments" = dictLookup d₁ "banned_assignments" :=
      hrest .ba (by decide)
    have hfa : dictLookup d₂ "forced_assignments" = dictLookup d₁ "forced_assignments" :=
      hrest .fa (by decide)
    have hfe : dictLookup d₂ "forced_employees" = dictLookup d₁ "forced_employees" :=
      hrest .fe (by decide)
    have h1' : dictLookup d₁ "forced_clients" = none := h1
    have h2' : dictLookup d₂ "forced_clients" = some (.ids []) ∨
        dictLookup d₂ "forced_clients" = some (.seqs []) := h2
    obtain ⟨v, hv⟩ : ∃ v, dictLookup d₂ "forced_clients" = some v := by
      rcases h2' with h | h <;> exact ⟨_, h⟩
    refine ⟨?_, ?_, ?_, ?_⟩
    · simp [normField, _normalize_hard_constraints, h1']
    · rcases h2' with h | h <;>
        simp [normField, _normalize_hard_constraints, h, normIdListVal,
          pySortNat, pySortSeq, List.insertionSort]
    · intro heq
      have hfld := congrArg (normField .fc) heq
      rcases h2' with h | h <;>
        simp [normField, _normalize_hard_constraints, h1', h] at hfld
    · show constraintsStr (_normalize_hard_constraints d₁) ≠
        constraintsStr (_normalize_hard_constraints d₂)
      have hP : 0 < ("\"forced_clients\": " ++
          serCVal (normIdListVal v)).length := by
        rw [String.length_append]
        have h0 : 0 < ("\"forced_clients\": " : String).length := by decide
        omega
      have hne := constraintsStr_ne_of_insert
        (serField "banned_assignments"
          ((dictLookup d₁ "banned_assignments").map normAssignmentsVal) ++
         serField "forced_assignments"
          ((dictLookup d₁ "forced_assignments").map normAssignmentsVal))
        (serField "forced_employees"
          ((dictLookup d₁ "forced_employees").map normIdListVal))
        ("\"forced_clients\": " ++ serCVal (normIdListVal v)) hP
      simpa [constraintsStr, _normalize_hard_constraints, h1', hv, hba, hfa,
        hfe, serField, List.append_assoc] using hne
  | ba =>
    have hfa : dictLookup d₂ "forced_assignments" = dictLookup d₁ "forced_assignments" :=
      hrest .fa (by decide)
    have hfc : dictLookup d₂ "forced_clients" = dictLookup d₁ "forced_clients" :=
      hrest .fc (by decide)
    have hfe : dictLookup d₂ "forced_employees" = dictLookup d₁ "forced_employees" :=
      hrest .fe (by decide)
    have h1' : dictLookup d₁ "banned_assignments" = none := h1
    have h2' : dictLookup d₂ "banned_assignments" = some (.ids []) ∨
        dictLookup d₂ "banned_assignments" = some (.seqs []) := h2
    obtain ⟨v, hv⟩ : ∃ v, dictLookup d₂ "banned_assignments" = some v := by
      rcases h2' with h | h <;> exact ⟨_, h⟩
    refine ⟨?_, ?_, ?_, ?_⟩
    · simp [normField, _normalize_hard_constraints, h1']
    · rcases h2' with h | h <;>
        simp [normField, _normalize_hard_constraints, h, normAssignmentsVal,
          pySortNat, pySortSeq, List.insertionSort]
    · intro heq
      have hfld := congrArg (normField .ba) heq
      rcases h2' with h | h <;>
        simp [normField, _normalize_hard_constraints, h1', h] at hfld
    · show constraintsStr (_normalize_hard_constraints d₁) ≠
        constraintsStr (_normalize_hard_constraints d₂)
      have hP : 0 < ("\"banned_assignments\": " ++
          serCVal (normAssignmentsVal v)).length := by
        rw [String.length_append]
        have h0 : 0 < ("\"banned_assignments\": " : String).length := by decide
        omega
      have hne := constraintsStr_ne_of_insert
        []
        (serField "forced_assignments"
          ((dictLookup d₁ "forced_assignments").map normAssignmentsVal) ++
         serField "forced_clients"
          ((dictLookup d₁ "forced_clients").map normIdListVal) ++
         serField "forced_employees"
          ((dictLookup d₁ "forced_employees").map normIdListVal))
        ("\"banned_assignments\": " ++ serCVal (normAssignmentsVal v)) hP
      simpa [constraintsStr, _normalize_hard_constraints, h1', hv, hfa, hfc,
        hfe, serField, List.append_assoc] using hne

/-- Witness for C9: the empty request versus the request that passes
`forced_clients` as an explicit empty list. -/
theorem absent_field_differs_from_explicit_empty_witness :
    normField .fc (_normalize_hard_constraints ([] : HCDict)) = none ∧
    (normField .fc (_normalize_hard_constraints
        [("forced_clients", CVal.ids [])]) = some (.ids []) ∨
     normField .fc (_normalize_hard_constraints
        [("forced_clients", CVal.ids [])]) = some (.seqs [])) ∧
    _normalize_hard_constraints ([] : HCDict) ≠
      _normalize_hard_constraints [("forced_clients", CVal.ids [])] ∧
    _hash_hard_constraints ([] : HCDict) ≠
      _hash_hard_constraints [("forced_clients", CVal.ids [])] :=
  absent_field_differs_from_explicit_empty [] [("forced_clients", CVal.ids [])]
    .fc rfl (Or.inl rfl)
    (by intro g hg; cases g <;> first | rfl | exact absurd rfl hg)

/-- Witness for C10 at concrete dicts that differ only in unrecognized keys. -/
theorem unrecognized_keys_ignored_witness :
    _normalize_hard_constraints
        [("forced_employees", CVal.ids [1]), ("mystery_key", CVal.ids [9])] =
      _normalize_hard_constraints
        [("totally_different", CVal.seqs [[2, 3]]),
         ("forced_employees", CVal.ids [1])] ∧
    _hash_hard_constraints
        [("forced_employees", CVal.ids [1]), ("mystery_key", CVal.ids [9])] =
      _hash_hard_constraints
        [("totally_different", CVal.seqs [[2, 3]]),
         ("forced_employees", CVal.ids [1])] :=
  unrecognized_keys_ignored _ _ (by intro f; cases f <;> rfl)

/-- Constraint dicts with equal canonical forms have equal hashes. -/
theorem hash_eq_of_normalize_eq {d d' : HCDict}
    (h : _normalize_hard_constraints d = _normalize_hard_constraints d') :
    _hash_hard_constraints d = _hash_hard_constraints d' :=
  congrArg constraintsStr h

/-- C1: Cache round-trip idempotence of the engine: when a call to
`get_recommendation` with constraints `d` computed a feasible output and
cached it (pipeline-ran flag `true`), a second call with any `d'` of the same
canonical constraint form returns exactly the cached output straight from the
cache (pipeline-ran flag `false`, whatever the second pipeline would have
produced), with the entry's `last_access` advanced to the later call time
`t₂` (> `t₁`) and its `cached_at` creation timestamp still `t₁`. -/
theorem cached_roundtrip (Out : Type) (d d' : HCDict)
    (st₀ st₁ : List (CacheEntry Out)) (out : Out) (compute₂ : Option Out)
    (t₁ t₂ : Nat)
    (hnorm : _normalize_hard_constraints d = _normalize_hard_constraints d')
    (_ht : t₁ < t₂)
    (hcall₁ : get_recommendation (some out) t₁ d st₀ = (some out, st₁, true)) :
    get_recommendation compute₂ t₂ d' st₁ =
      (some out,
       st₀ ++ [{ constraint_hash := _hash_hard_constraints d,
                 hard_constraints := _normalize_hard_constraints d,
                 output := out, cached_at := some t₁, last_access := t₂ }],
       false) := by
  have hhash : _hash_hard_constraints d = _hash_hard_constraints d' :=
    hash_eq_of_normalize_eq hnorm
  cases hx : extractFirst
      (fun e => e.constraint_hash = _hash_hard_constraints d) st₀ with
  | some y =>
    obtain ⟨pre, e, post⟩ := y
    simp [get_recommendation, get_cached_result, hx] at hcall₁
  | none =>
    have hseen : has_seen_constraints d st₀ = false := by
      rw [has_seen_constraints, List.any_eq_false]
      intro e he
      simpa using (extractFirst_eq_none_iff _ st₀).mp hx e he
    have hst₁ : st₁ =
        st₀ ++ [{ constraint_hash := _hash_hard_constraints d,
                  hard_constraints := _normalize_hard_constraints d,
                  output := out, cached_at := some t₁, last_access := t₁ }] := by
      have := hcall₁
      simp [get_recommendation, get_cached_result, hx, hseen,
        cache_result] at this
      exact this.symm
    subst hst₁
    have hx₂ : extractFirst
        (fun e => e.constraint_hash = _hash_hard_constraints d')
        (st₀ ++ [{ constraint_hash := _hash_hard_constraints d,
                   hard_constraints := _normalize_hard_constraints d,
                   output := out, cached_at := some t₁, last_access := t₁ }]) =
        some (st₀,
          { constraint_hash := _hash_hard_constraints d,
            hard_constraints := _normalize_hard_constraints d,
            output := out, cached_at := some t₁, last_access := t₁ }, []) := by
      rw [← hhash]
      rw [extractFirst_append_none _ _ _ hx]
      simp [extractFirst]
    simp [get_recommendation, get_cached_result, hx₂]

/-- Witness for C1: constraints listing the same employee set in two orders;
the second call runs with no pipeline result at all (`compute₂ = none`) and
still returns the cached output. -/
theorem cached_roundtrip_witness :
    get_recommendation (none : Option Nat) 1
        [("forced_employees", CVal.ids [2, 1])]
        (cache_result [("forced_employees", CVal.ids [1, 2])] 42 0 []) =
      (some 42,
       [] ++ [{ constraint_hash :=
                  _hash_hard_constraints [("forced_employees", CVal.ids [1, 2])],
                hard_constraints :=
                  _normalize_hard_constraints
                    [("forced_employees", CVal.ids [1, 2])],
                output := 42, cached_at := some 0, last_access := 1 }],
       false) :=
  cached_roundtrip Nat [("forced_employees", CVal.ids [1, 2])]
    [("forced_employees", CVal.ids [2, 1])] []
    (cache_result [("forced_employees", CVal.ids [1, 2])] 42 0 []) 42 none 0 1
    (by decide) (by decide) (by decide)

/-- C4: Infeasibility atomicity: on constraints whose hash is not in the
cache, an infeasible solve (`compute = none`) makes `get_recommendation`
return the infeasible signal `none`, run the pipeline, and leave the cache
store exactly unchanged. -/
theorem infeasible_no_cache_write (Out : Type) (d : HCDict)
    (st : List (CacheEntry Out)) (t : Nat)
    (h : ∀ e ∈ st, e.constraint_hash ≠ _hash_hard_constraints d) :
    get_recommendation (none : Option Out) t d st = (none, st, true) := by
  have hx : extractFirst
      (fun e => e.constraint_hash = _hash_hard_constraints d) st = none := by
    rw [extractFirst_eq_none_iff]
    intro x hxm
    simpa using h x hxm
  simp [get_recommendation, get_cached_result, hx]

/-- Witness for C4: an infeasible request leaves a one-entry cache for other
constraints untouched. -/
theorem infeasible_no_cache_write_witness :
    get_recommendation (none : Option Nat) 3 []
        (cache_result [("forced_clients", CVal.ids [3])] 7 0 []) =
      (none, cache_result [("forced_clients", CVal.ids [3])] 7 0 [], true) :=
  infeasible_no_cache_write Nat []
    (cache_result [("forced_clients", CVal.ids [3])] 7 0 []) 3 (by decide)

/-- Moving an entry to the end while keeping its hash permutes the hash
list. -/
theorem hashMap_perm_move {Out : Type} (pre post : List (CacheEntry Out))
    (e e' : CacheEntry Out) (h : e'.constraint_hash = e.constraint_hash) :
    List.Perm ((pre ++ post ++ [e']).map (fun x => x.constraint_hash))
      ((pre ++ e :: post).map (fun x => x.constraint_hash)) := by
  simp only [List.map_append, List.map_cons, List.map_nil, h,
    List.append_assoc]
  exact List.Perm.append_left _ (List.perm_append_singleton _ _)

/-- Storing via `cache_result` preserves hash uniqueness. -/
theorem hashesNodup_cache_result {Out : Type} (d : HCDict) (out : Out)
    (now : Nat) (st : List (CacheEntry Out)) (h : hashesNodup st) :
    hashesNodup (cache_result d out now st) := by
  cases hx : extractFirst
      (fun e => e.constraint_hash = _hash_hard_constraints d) st with
  | none =>
    have hfree : ∀ e ∈ st, e.constraint_hash ≠ _hash_hard_constraints d := by
      intro e he
      simpa using (extractFirst_eq_none_iff _ st).mp hx e he
    simp only [cache_result, hx]
    rw [hashesNodup, List.map_append, List.nodup_append]
    refine ⟨h, by simp, ?_⟩
    intro a ha hb
    simp only [List.map_cons, List.map_nil, List.mem_singleton] at hb
    obtain ⟨e, he, rfl⟩ := List.mem_map.mp ha
    exact hfree e he (hb ▸ rfl)
  | some y =>
    obtain ⟨pre, e, post⟩ := y
    obtain ⟨hsplit, hpe, hpre⟩ := extractFirst_some_spec _ st pre e post hx
    simp only [cache_result, hx]
    rw [hashesNodup]
    refine (List.Perm.nodup_iff (hashMap_perm_move pre post e
      { constraint_hash := e.constraint_hash,
        hard_constraints := _normalize_hard_constraints d, output := out,
        cached_at := some (e.cached_at.getD now), last_access := now }
      rfl)).mpr ?_
    rw [← hsplit]
    exact h

/-- Lookup (which may move an entry to the end) preserves hash uniqueness. -/
theorem hashesNodup_lookup {Out : Type} (d : HCDict) (now : Nat)
    (st : List (CacheEntry Out)) (h : hashesNodup st) :
    hashesNodup ((get_cached_result d now st).2) := by
  cases hx : extractFirst
      (fun e => e.constraint_hash = _hash_hard_constraints d) st with
  | none => simpa [get_cached_result, hx] using h
  | some y =>
    obtain ⟨pre, e, post⟩ := y
    obtain ⟨hsplit, hpe, hpre⟩ := extractFirst_some_spec _ st pre e post hx
    simp only [get_cached_result, hx]
    rw [hashesNodup]
    refine (List.Perm.nodup_iff (hashMap_perm_move pre post e
      { constraint_hash := e.constraint_hash,
        hard_constraints := e.hard_constraints, output := e.output,
        cached_at := e.cached_at, last_access := now } rfl)).mpr ?_
    rw [← hsplit]
    exact h

/-- C7: Cache uniqueness invariant: every store reachable from the empty
store by `store` / `lookup` / `clear` operations has at most one entry per
distinct constraint hash; and a `store` against an already-present hash
updates that entry in place and moves it to the end instead of appending a
duplicate, so the store's length is unchanged. -/
theorem cache_unique_hash_invariant (Out : Type) :
    (∀ ops : List (CacheOp Out), hashesNodup (runOps ops)) ∧
    (∀ (st : List (CacheEntry Out)) (d : HCDict) (out : Out) (now : Nat),
      (∃ e ∈ st, e.constraint_hash = _hash_hard_constraints d) →
      (cache_result d out now st).length = st.length) := by
  constructor
  · have main : ∀ (ops : List (CacheOp Out)) (st : List (CacheEntry Out)),
        hashesNodup st → hashesNodup (ops.foldl applyOp st) := by
      intro ops
      induction ops with
      | nil => intro st h; simpa using h
      | cons op rest ih =>
        intro st h
        simp only [List.foldl_cons]
        apply ih
        cases op with
        | store d out now => exact hashesNodup_cache_result d out now st h
        | lookup d now => exact hashesNodup_lookup d now st h
        | clear => simp [applyOp, clear_cache, hashesNodup]
    exact fun ops => main ops [] (by simp [hashesNodup])
  · intro st d out now hmem
    obtain ⟨e, he, hh⟩ := hmem
    cases hx : extractFirst
        (fun x => x.constraint_hash = _hash_hard_constraints d) st with
    | none =>
      have := (extractFirst_eq_none_iff _ st).mp hx e he
      simp [hh] at this
    | some y =>
      obtain ⟨pre, f, post⟩ := y
      obtain ⟨hsplit, hpf, hpre⟩ := extractFirst_some_spec _ st pre f post hx
      simp only [cache_result, hx]
      subst hsplit
      simp [List.length_append]

/-- Witness for C7: a three-operation history keeps hashes unique, and a
store over an existing hash does not grow the one-entry store. -/
theorem cache_unique_hash_invariant_witness :
    hashesNodup (runOps
      [CacheOp.store [] (5 : Nat) 0, CacheOp.store [] 6 1,
       CacheOp.lookup [] 2]) ∧
    (cache_result [] (7 : Nat) 3
        (runOps [CacheOp.store [] (5 : Nat) 0])).length =
      (runOps [CacheOp.store [] (5 : Nat) 0]).length :=
  ⟨(cache_unique_hash_invariant Nat).1 _,
   (cache_unique_hash_invariant Nat).2 _ _ _ _ (by decide)⟩

/-- C5 counterexample: with caching enabled and the model artifact absent,
construction succeeds and silently holds a fresh IsolationForest with the
default parameters — refuting the claim that the scorer fails fast with a
`ModelUnavailable` error and never falls back to a substitute model. -/
theorem scorer_fallback_counterexample :
    (AbnormalityModel.init none true false false).model =
      ScoringModel.freshIsolationForest default_params := rfl

/-- C5 amended: whenever the model artifact is absent on construction, the
constructor does not fail; it silently falls back to a freshly constructed
IsolationForest parameterized by the defaults (updated with any explicit
non-empty parameters), and `ModelUnavailable` does not exist in the code. -/
theorem scorer_silent_fallback
    (model_params : Option (List (String × String)))
    (use_cache explainer_file_exists : Bool) :
    (AbnormalityModel.init model_params use_cache false
        explainer_file_exists).model =
      ScoringModel.freshIsolationForest
        (match model_params with
         | some [] => default_params
         | some mp => dictUpdate default_params mp
         | none => default_params) := by
  cases use_cache <;> rfl

/-- C8 counterexample: a readable cache file whose JSON content is malformed
for the cache (the list `[5]`) makes the seen-before check raise
`AttributeError` (`int` has no attribute `get`) — the exception propagates
to the caller instead of the cache being treated as empty. -/
theorem corrupt_cache_raises_counterexample :
    has_seen_constraints_file (.parsed (.vList [.vInt 5])) [] =
      .error .attributeError := rfl

/-- C8 amended: whenever the backing store is missing, unreadable, or not
parseable as JSON, every cache read behaves exactly as if the cache were
empty — the seen-before check returns false, lookup returns absent and
writes nothing, and no exception propagates; but syntactically valid JSON of
the wrong shape can instead raise an uncaught exception (see the
counterexample). -/
theorem cache_fail_open (fc : FileContent) (d : HCDict) (now : String)
    (h : fc = .missing ∨ fc = .ioError ∨ fc = .badJson) :
    has_seen_constraints_file fc d = .ok false ∧
    get_cached_result_file fc now d = .ok (none, fc) := by
  rcases h with rfl | rfl | rfl <;> exact ⟨rfl, rfl⟩

/-- Witness for C8 (amended) at a concrete unparseable store. -/
theorem cache_fail_open_witness :
    has_seen_constraints_file .badJson [("forced_clients", CVal.ids [1])] =
      .ok false ∧
    get_cached_result_file .badJson "2025-03-21T00:00:00"
        [("forced_clients", CVal.ids [1])] =
      .ok (none, .badJson) :=
  cache_fail_open .badJson [("forced_clients", CVal.ids [1])]
    "2025-03-21T00:00:00" (Or.inr (Or.inr rfl))

/-- C6 counterexample: employee 1 has no travel-time entry for client 2's
school 7, yet the pool builder emits a candidate row for the pair — with a
null `timeToSchool` — instead of excluding the pair as the claim states. -/
theorem pool_includes_missing_travel_time :
    (create_single_df
        [{ id := 2, school := 7, priority := 1, requiredSex := none,
           neededQualifications := [] }]
        [{ id := 1, timeToSchool := [], cl_experience := [],
           school_experience := [], short_term_cl_experience := [],
           availability := 0, hasCar := false, qualifications := [] }]
        [{ mas := 1, clients := 2 }] none).map
        (fun r => (r.ma_id, r.client_id, r.timeToSchool)) =
      [(1, 2, none)] := rfl

/-- C6 amended: a pair of the open cross product is excluded from the pool
exactly when its employee id or client id fails the inner join against the
employee / client tables; a pair whose ids join is always emitted as a row
built by `create_single_row`, even when the employee has no travel-time
entry for the client's school (the row then carries a null `timeToSchool`,
cf. the counterexample). -/
theorem pool_membership (clients_df : List ClientRecord)
    (mas_df : List MaRecord) (replacements : List Replacement)
    (date : Option Nat) (row : CandidateRow) :
    row ∈ create_single_df clients_df mas_df replacements date ↔
      ∃ r ∈ replacements, ∃ m ∈ mas_df, m.id = r.mas ∧
        ∃ c ∈ clients_df, c.id = r.clients ∧
          row = create_single_row date m c := by
  simp only [create_single_df]
  by_cases hL : (replacements.flatMap (fun r =>
      (mas_df.filter (fun m => m.id = r.mas)).flatMap (fun m =>
        (clients_df.filter (fun c => c.id = r.clients)).map
          (fun c => (m, c))))).isEmpty
  · rw [if_pos hL]
    rw [List.isEmpty_iff] at hL
    simp only [List.not_mem_nil, false_iff]
    rintro ⟨r, hr, m, hm, him, c, hc, hic, rfl⟩
    have : (m, c) ∈ replacements.flatMap (fun r =>
        (mas_df.filter (fun m => m.id = r.mas)).flatMap (fun m =>
          (clients_df.filter (fun c => c.id = r.clients)).map
            (fun c => (m, c)))) := by
      rw [List.mem_flatMap]
      exact ⟨r, hr, by
        rw [List.mem_flatMap]
        exact ⟨m, List.mem_filter.mpr ⟨hm, by simpa using him⟩, by
          rw [List.mem_map]
          exact ⟨c, List.mem_filter.mpr ⟨hc, by simpa using hic⟩, rfl⟩⟩⟩
    rw [hL] at this
    exact List.not_mem_nil _ this
  · rw [if_neg hL]
    rw [List.mem_map]
    constructor
    · rintro ⟨⟨m, c⟩, hmc, rfl⟩
      rw [List.mem_flatMap] at hmc
      obtain ⟨r, hr, hmc⟩ := hmc
      rw [List.mem_flatMap] at hmc
      obtain ⟨m', hm', hmc⟩ := hmc
      rw [List.mem_map] at hmc
      obtain ⟨c', hc', heq⟩ := hmc
      injection heq with h1 h2
      subst h1; subst h2
      obtain ⟨hm'mem, hm'id⟩ := List.mem_filter.mp hm'
      obtain ⟨hc'mem, hc'id⟩ := List.mem_filter.mp hc'
      exact ⟨r, hr, m', hm'mem, by simpa using hm'id, c', hc'mem,
        by simpa using hc'id, rfl⟩
    · rintro ⟨r, hr, m, hm, him, c, hc, hic, rfl⟩
      refine ⟨(m, c), ?_, rfl⟩
      rw [List.mem_flatMap]
      exact ⟨r, hr, by
        rw [List.mem_flatMap]
        exact ⟨m, List.mem_filter.mpr ⟨hm, by simpa using him⟩, by
          rw [List.mem_map]
          exact ⟨c, List.mem_filter.mpr ⟨hc, by simpa using hic⟩, rfl⟩⟩⟩

/-- The fold inside `pickBest` returns a key-minimal element. -/
theorem pickBest_foldl_le (xs : List (List ScoredPair)) :
    ∀ x : List ScoredPair,
      solKey (xs.foldl
        (fun acc y => if solKey y < solKey acc then y else acc) x) ≤ solKey x ∧
      ∀ y ∈ xs,
        solKey (xs.foldl
          (fun acc y => if solKey y < solKey acc then y else acc) x) ≤ solKey y := by
  induction xs with
  | nil => intro x; exact ⟨le_refl _, by simp⟩
  | cons z zs ih =>
    intro x
    simp only [List.foldl_cons]
    by_cases h : solKey z < solKey x
    · rw [if_pos h]
      obtain ⟨h1, h2⟩ := ih z
      refine ⟨le_trans h1 (le_of_lt h), ?_⟩
      intro y hy
      rcases List.mem_cons.mp hy with rfl | hy
      · exact h1
      · exact h2 y hy
    · rw [if_neg h]
      obtain ⟨h1, h2⟩ := ih x
      refine ⟨h1, ?_⟩
      intro y hy
      rcases List.mem_cons.mp hy with rfl | hy
      · exact le_trans h1 (not_lt.mp h)
      · exact h2 y hy

/-- The fold inside `pickBest` picks an element of the candidate list. -/
theorem pickBest_foldl_mem (xs : List (List ScoredPair)) :
    ∀ x : List ScoredPair,
      xs.foldl (fun acc y => if solKey y < solKey acc then y else acc) x ∈
        x :: xs := by
  induction xs with
  | nil => intro x; simp
  | cons z zs ih =>
    intro x
    simp only [List.foldl_cons]
    by_cases h : solKey z < solKey x
    · rw [if_pos h]
      exact List.mem_cons_of_mem x (ih z)
    · rw [if_neg h]
      rcases List.mem_cons.mp (ih x) with heq | hm
      · rw [heq]; exact List.mem_cons_self _ _
      · exact List.mem_cons_of_mem x (List.mem_cons_of_mem z hm)

/-- The function `pickBest` returns a member no candidate beats. -/
theorem pickBest_spec (l : List (List ScoredPair)) (m : List ScoredPair)
    (h : pickBest l = some m) :
    m ∈ l ∧ ∀ y ∈ l, ¬ solKey y < solKey m := by
  cases l with
  | nil => simp [pickBest] at h
  | cons x xs =>
    simp only [pickBest, Option.some.injEq] at h
    subst h
    refine ⟨pickBest_foldl_mem xs x, ?_⟩
    intro y hy
    obtain ⟨h1, h2⟩ := pickBest_foldl_le xs x
    rcases List.mem_cons.mp hy with rfl | hy
    · exact not_lt.mpr h1
    · exact not_lt.mpr (h2 y hy)

/-- Over a pool with duplicate-free (employee, client) pairs, a selection is
determined by its pair list. -/
theorem map_pair_inj_on (pool : List ScoredPair)
    (hN : (pool.map (fun r => (r.ma, r.client))).Nodup) :
    ∀ m₁ m₂ : List ScoredPair, m₁ ⊆ pool → m₂ ⊆ pool →
      m₁.map (fun r => toLex (r.ma, r.client)) =
        m₂.map (fun r => toLex (r.ma, r.client)) →
      m₁ = m₂ := by
  have hinj := List.inj_on_of_nodup_map hN
  intro m₁
  induction m₁ with
  | nil =>
    intro m₂ _ _ h
    cases m₂ with
    | nil => rfl
    | cons b bs => simp at h
  | cons a as ih =>
    intro m₂ h₁ h₂ h
    cases m₂ with
    | nil => simp at h
    | cons b bs =>
      simp only [List.map_cons, List.cons.injEq] at h
      obtain ⟨hab, htail⟩ := h
      have hpair : a = b := by
        have ha : a ∈ pool := h₁ (List.mem_cons_self a as)
        have hb : b ∈ pool := h₂ (List.mem_cons_self b bs)
        have hab' : (a.ma, a.client) = (b.ma, b.client) := hab
        exact hinj ha hb hab'
      subst hpair
      have htl := ih bs (fun x hx => h₁ (List.mem_cons_of_mem _ hx))
        (fun x hx => h₂ (List.mem_cons_of_mem _ hx)) htail
      rw [htl]

/-- C3 (spec-modelled): solver determinism — over any scored pool with
unique (employee, client) pairs, the modelled `solve` returns exactly the
feasible selection that is optimal under the fixed documented key order
(maximal objective, ties broken lexicographically by the (employee id,
client id) pair list), and that optimum is unique: any two solves of the
same inputs, and any reimplementation honouring the documented tie-break,
produce the identical assignment list and hence identical objective value. -/
theorem solve_deterministic (pool : List ScoredPair) (cons : SolverConstraints)
    (hN : (pool.map (fun r => (r.ma, r.client))).Nodup) :
    (∀ m, solve pool cons = some m → isOptimal pool cons m) ∧
    (∀ m₁ m₂, isOptimal pool cons m₁ → isOptimal pool cons m₂ → m₁ = m₂) := by
  constructor
  · intro m h
    exact pickBest_spec _ m h
  · intro m₁ m₂ h₁ h₂
    obtain ⟨hm₁, hopt₁⟩ := h₁
    obtain ⟨hm₂, hopt₂⟩ := h₂
    have hk : solKey m₁ = solKey m₂ :=
      le_antisymm (not_lt.mp (hopt₁ m₂ hm₂)) (not_lt.mp (hopt₂ m₁ hm₁))
    have hpairs : m₁.map (fun r => toLex (r.ma, r.client)) =
        m₂.map (fun r => toLex (r.ma, r.client)) := by
      have hcomp := congrArg (fun k => (ofLex k).2) hk
      simpa [solKey] using hcomp
    have hsub₁ : m₁ ⊆ pool :=
      (List.mem_sublists.mp (List.mem_filter.mp hm₁).1).subset
    have hsub₂ : m₂ ⊆ pool :=
      (List.mem_sublists.mp (List.mem_filter.mp hm₂).1).subset
    exact map_pair_inj_on pool hN m₁ m₂ hsub₁ hsub₂ hpairs

/-- Witness for C3 on the spec's four-pair example pool (scores scaled to
integers): the perfect matching (1,1)+(2,2) with objective 14 is the unique
optimum, and `solve` returns it. -/
theorem solve_deterministic_witness :
    isOptimal
      [⟨1, 1, 5⟩, ⟨1, 2, 3⟩, ⟨2, 1, 4⟩, ⟨2, 2, 9⟩]
      ⟨[], [], [], []⟩
      [⟨1, 1, 5⟩, ⟨2, 2, 9⟩] :=
  (solve_deterministic [⟨1, 1, 5⟩, ⟨1, 2, 3⟩, ⟨2, 1, 4⟩, ⟨2, 2, 9⟩]
      ⟨[], [], [], []⟩ (by decide)).1
    [⟨1, 1, 5⟩, ⟨2, 2, 9⟩] (by decide)

end StaffPlanning
